import Mathlib

/-!
Verification of the BibTeX parse / resolve / serialize engine
(`parseBibtex`, `processEntries`, `serializeBibtex` and their helpers
from `src/utils/searchSimilarity.ts`, data model from `types/bibtex.ts`).

Strings are modelled as lists of characters (`Chars`).  JavaScript
`Record<string, string>` objects are modelled as insertion-ordered
association lists (`Dict`); `for...in` iteration is iteration in list
order, property assignment is `alPut` (replace in place or append), and
`hasOwnProperty` is `alMem`.  All definitions are written with structural
recursion (explicit fuel where the source advances a cursor) so that they
evaluate by kernel reduction.
-/

abbrev Chars := List Char

abbrev Dict := List (Chars × Chars)

/-- JavaScript `\s` for the ASCII range (space, tab, newline, carriage
return, vertical tab, form feed). -/
def isSpaceChar (c : Char) : Bool :=
  c = ' ' || c = '\t' || c = '\n' || c = '\r' || c = '\x0b' || c = '\x0c'

/-- JavaScript `\w`: ASCII letters, digits and underscore. -/
def isWordChar (c : Char) : Bool :=
  ('a' ≤ c && c ≤ 'z') || ('A' ≤ c && c ≤ 'Z') || ('0' ≤ c && c ≤ '9') || c = '_'

/-- Shorthand turning a string literal into its character list. -/
def cs (x : String) : Chars := x.toList

/-- `String.prototype.toLowerCase` (ASCII). -/
def toLowerChars (l : Chars) : Chars := l.map Char.toLower

/-- `String.prototype.trim`. -/
def trimChars (l : Chars) : Chars :=
  ((l.dropWhile isSpaceChar).reverse.dropWhile isSpaceChar).reverse

/-- First occurrence of `c` at index `start` or later (`indexOf`). -/
def indexOfFrom (l : Chars) (c : Char) (start : Nat) : Option Nat :=
  match (l.drop start).findIdx? (· = c) with
  | none => none
  | some i => some (start + i)

/-- Association-list lookup: first binding wins (JS objects have unique
keys, so on reachable values first = only). -/
def alGet : Dict → Chars → Option Chars
  | [], _ => none
  | (k', v) :: r, k => if k' = k then some v else alGet r k

/-- `Object.prototype.hasOwnProperty`. -/
def alMem (m : Dict) (k : Chars) : Bool := (alGet m k).isSome

/-- JS property assignment `m[k] = v`: overwrite in place, else append. -/
def alPut : Dict → Chars → Chars → Dict
  | [], k, v => [(k, v)]
  | (k', v') :: r, k, v => if k' = k then (k, v) :: r else (k', v') :: alPut r k v

/-- `BibTeXEntry` from `types/bibtex.ts`.  The three optional properties
are `Option`s (`undefined` ↦ `none`). -/
structure BibEntry where
  type : Chars
  key : Chars
  fields : Dict
  authors : Option (List Chars) := none
  authorsAreCanonical : Option Bool := none
  processedFields : Option Dict := none
deriving DecidableEq, Repr

/-- `ParsedBibTeX` from `types/bibtex.ts`. -/
structure ParsedBibTeX where
  entries : List BibEntry
  strings : Dict
deriving DecidableEq, Repr

/-- `text.replace(/\r\n/g, '\n')` (first half of the clean-up in
`parseBibtex`). -/
def normalizeNewlines : Chars → Chars
  | [] => []
  | '\r' :: '\n' :: r => '\n' :: normalizeNewlines r
  | c :: r => c :: normalizeNewlines r

/-- State machine for `text.replace(/%.*$/gm, '')`: once a `%` is seen,
characters are dropped up to (not including) the next newline.  The flag
records whether we are inside the removed region. -/
def stripCommentsAux : Bool → Chars → Chars
  | _, [] => []
  | inComment, c :: r =>
    if c = '\n' then c :: stripCommentsAux false r
    else if inComment then stripCommentsAux true r
    else if c = '%' then stripCommentsAux true r
    else c :: stripCommentsAux false r

/-- `text.replace(/%.*$/gm, '')` (second half of the clean-up in
`parseBibtex`). -/
def stripComments (l : Chars) : Chars := stripCommentsAux false l

/-- `value.replace(/\s\s+/g, ' ')`: every run of two or more whitespace
characters collapses to a single space; a lone whitespace character is
kept as written.  The flag records whether we are inside a matched run. -/
def collapseWsAux : Bool → Chars → Chars
  | _, [] => []
  | true, c :: r =>
    if isSpaceChar c then collapseWsAux true r else c :: collapseWsAux false r
  | false, c :: r =>
    if isSpaceChar c then
      match r with
      | [] => [c]
      | c2 :: _ =>
        if isSpaceChar c2 then ' ' :: collapseWsAux true r
        else c :: collapseWsAux false r
    else c :: collapseWsAux false r

def collapseWs (l : Chars) : Chars := collapseWsAux false l

/-- `String.prototype.split(sep)` for a single-character separator. -/
def splitOnChar (sep : Char) : Chars → List Chars
  | [] => [[]]
  | c :: r =>
    if c = sep then [] :: splitOnChar sep r
    else
      match splitOnChar sep r with
      | [] => [[c]]
      | h :: t => (c :: h) :: t

/-- Concatenate with a separator (`Array.prototype.join`). -/
def joinSep (sep : Chars) : List Chars → Chars
  | [] => []
  | [x] => x
  | x :: r => x ++ sep ++ joinSep sep r

/-- `BlockResult` from `searchSimilarity.ts` (`findBlock`). -/
structure BlockResult where
  content : Chars
  endIndex : Nat
deriving DecidableEq, Repr

/-- The balanced-delimiter scan inside `findBlock`: walk the characters
after the open delimiter carrying the current index and depth; on depth
zero return the accumulated content and the index one past the closer. -/
def findBalancedAux (openC closeC : Char) : Chars → Nat → Nat → Chars → Option BlockResult
  | [], _, _, _ => none
  | c :: r, i, balance, acc =>
    let balance' := if c = openC then balance + 1
                    else if c = closeC then balance - 1 else balance
    if balance' = 0 then some ⟨acc.reverse, i + 1⟩
    else findBalancedAux openC closeC r (i + 1) balance' (c :: acc)

/-- `findBlock(text, startIndex)`: pick the earlier of the first `(` and
the first opening brace at or after `startIndex` (the two indices can
never coincide), then scan for its balanced match. -/
def findBlock (text : Chars) (startIndex : Nat) : Option BlockResult :=
  match indexOfFrom text '(' startIndex, indexOfFrom text '\x7b' startIndex with
  | some p, some b =>
    if p < b then findBalancedAux '(' ')' (text.drop (p + 1)) (p + 1) 1 []
    else findBalancedAux '\x7b' '\x7d' (text.drop (b + 1)) (b + 1) 1 []
  | some p, none => findBalancedAux '(' ')' (text.drop (p + 1)) (p + 1) 1 []
  | none, some b => findBalancedAux '\x7b' '\x7d' (text.drop (b + 1)) (b + 1) 1 []
  | none, none => none

/-- `ParseValueResult` from `searchSimilarity.ts`. -/
structure ParseValueResult where
  value : Chars
  length : Nat
deriving DecidableEq, Repr

/-- The regex fragment `^([^,]+)` used by `parseValue`: longest prefix of
non-comma characters. -/
def takeNonComma (l : Chars) : Chars := l.takeWhile (· ≠ ',')

/-- Scan for the next unescaped double quote (`parseValue`'s quoted
branch): walk with the previous character in hand, returning the index of
the first `"` whose predecessor is not a backslash. -/
def findCloseQuote : Chars → Char → Nat → Option Nat
  | [], _, _ => none
  | c :: r, prev, i =>
    if c = '"' && prev != '\\' then some i else findCloseQuote r c (i + 1)

/-- `parseValue(text)`.  `startChar` is the leading whitespace; the four
branches (value containing a hash, brace-delimited, quote-delimited, bare
token) mirror the source, including the quirk that the hash test looks at
the whole trimmed remainder and that the hash/bare branches stop at the
first comma.  The returned value has whitespace runs collapsed. -/
def parseValue (text : Chars) : ParseValueResult :=
  let startChar := text.takeWhile isSpaceChar
  let trimmedText := trimChars text
  if trimmedText.contains '#' then
    let value := trimChars (takeNonComma trimmedText)
    ⟨collapseWs value, startChar.length + value.length⟩
  else if trimmedText.head? = some '\x7b' then
    match findBalancedAux '\x7b' '\x7d' (trimmedText.drop 1) 1 1 [] with
    | some br => ⟨collapseWs (trimChars br.content), startChar.length + br.endIndex⟩
    | none => ⟨[], startChar.length⟩
  else if trimmedText.head? = some '"' then
    match findCloseQuote (trimmedText.drop 1) '"' 1 with
    | some i => ⟨collapseWs (trimChars ((trimmedText.take i).drop 1)), startChar.length + i + 1⟩
    | none => ⟨[], startChar.length⟩
  else
    let value := trimChars (takeNonComma trimmedText)
    ⟨collapseWs value, startChar.length + value.length⟩

/-- The regex `^\s*(\w+)\s*=` used by `parseFields`: returns the captured
identifier and the total length of the match. -/
def matchFieldKey (l : Chars) : Option (Chars × Nat) :=
  let ws1 := l.takeWhile isSpaceChar
  let r1 := l.drop ws1.length
  let w := r1.takeWhile isWordChar
  if w = [] then none
  else
    let r2 := r1.drop w.length
    let ws2 := r2.takeWhile isSpaceChar
    match (r2.drop ws2.length).head? with
    | some '=' => some (w, ws1.length + w.length + ws2.length + 1)
    | _ => none

/-- The loop body of `parseFields`: repeatedly match a field key, parse
one value, store it, and consume an optional trailing comma.  The cursor
arithmetic of the source is replaced by passing the remaining suffix; the
fuel only bounds the iteration count (each iteration consumes at least
the key and the equals sign, so `fieldsText.length` iterations suffice). -/
def parseFieldsAux : Nat → Chars → Dict → Dict
  | 0, _, fields => fields
  | fuel + 1, rest, fields =>
    match matchFieldKey rest with
    | none => fields
    | some (key, mlen) =>
      let afterEq := rest.drop mlen
      let pv := parseValue afterEq
      let fields' := alPut fields (toLowerChars key) pv.value
      let rest2 := afterEq.drop pv.length
      let ws := rest2.takeWhile isSpaceChar
      let rest3 := if (rest2.drop ws.length).head? = some ',' then rest2.drop (ws.length + 1) else rest2
      parseFieldsAux fuel rest3 fields'

/-- `parseFields(fieldsText)`. -/
def parseFields (fieldsText : Chars) : Dict :=
  parseFieldsAux (fieldsText.length + 1) fieldsText []

/-- `parseField(fieldText)` (used for `@string` and `@preamble` bodies):
the regex `^\s*(\w+)\s*=\s*([\s\S]+)` followed by `parseValue` on the
second capture.  When everything after the equals sign is whitespace the
greedy `\s*` backtracks to leave exactly one character for the capture. -/
def parseField (fieldText : Chars) : Chars × Chars :=
  let r1 := fieldText.dropWhile isSpaceChar
  let w := r1.takeWhile isWordChar
  if w = [] then ([], [])
  else
    match (r1.drop w.length).dropWhile isSpaceChar with
    | '=' :: rest =>
      if rest = [] then ([], [])
      else
        let stripped := rest.dropWhile isSpaceChar
        let m2 := if stripped = [] then rest.drop (rest.length - 1) else stripped
        (w, (parseValue m2).value)
    | _ => ([], [])

/-- The regex `^\s*([^,]+)\s*,` applied to an entry body: succeeds when
the first comma exists and is not the very first character; the capture
is everything before that comma and the match extends one past it. -/
def parseKeyMatch (content : Chars) : Option (Chars × Nat) :=
  match content.findIdx? (· = ',') with
  | none => none
  | some 0 => none
  | some i => some (content.take i, i + 1)

/-- Registration of an `@string`/`@preamble` body: `parseField`, then
`strings[key.toLowerCase()] = value` guarded by both `key` and `value`
being truthy (non-empty). -/
def stringRegister (content : Chars) (ss : Dict) : Dict :=
  let kv := parseField content
  if kv.1 ≠ [] ∧ kv.2 ≠ [] then alPut ss (toLowerChars kv.1) kv.2 else ss

/-- The scanning loop of `parseBibtex`: find the next `@`, read the type
word, locate the balanced block, and dispatch on the type.  The cursor
strictly increases on every path, so `text.length + 1` fuel suffices. -/
def parseLoop (text : Chars) : Nat → Nat → List BibEntry → Dict → ParsedBibTeX
  | 0, _, es, ss => ⟨es, ss⟩
  | fuel + 1, cursor, es, ss =>
    if text.length ≤ cursor then ⟨es, ss⟩
    else
      match indexOfFrom text '@' cursor with
      | none => ⟨es, ss⟩
      | some atIndex =>
        let ty := (text.drop (atIndex + 1)).takeWhile isWordChar
        if ty = [] then parseLoop text fuel (atIndex + 1) es ss
        else
          let type := toLowerChars ty
          let blockStart := atIndex + 1 + ty.length
          match findBlock text blockStart with
          | none => parseLoop text fuel blockStart es ss
          | some block =>
            if type = cs "string" ∨ type = cs "preamble" then
              parseLoop text fuel block.endIndex es (stringRegister block.content ss)
            else if type = cs "comment" then
              parseLoop text fuel block.endIndex es ss
            else
              match parseKeyMatch block.content with
              | none => parseLoop text fuel block.endIndex es ss
              | some (rawKey, mlen) =>
                let entry : BibEntry :=
                  { type := type
                    key := trimChars rawKey
                    fields := parseFields (block.content.drop mlen) }
                parseLoop text fuel block.endIndex (es ++ [entry]) ss

/-- `parseBibtex(text)`: normalize newlines, strip `%` comments, then
scan. -/
def parseBibtex (input : Chars) : ParsedBibTeX :=
  let cleanText := stripComments (normalizeNewlines input)
  parseLoop cleanText (cleanText.length + 1) 0 [] []

/-- `value.replace(/"/g, '')`. -/
def removeQuotes (l : Chars) : Chars := l.filter (· ≠ '"')

/-- The `monthStrings` table defined inside `processEntries`. -/
def monthStrings : Dict :=
  [(cs "jan", cs "January"), (cs "feb", cs "February"), (cs "mar", cs "March"),
   (cs "apr", cs "April"), (cs "may", cs "May"), (cs "jun", cs "June"),
   (cs "jul", cs "July"), (cs "aug", cs "August"), (cs "sep", cs "September"),
   (cs "oct", cs "October"), (cs "nov", cs "November"), (cs "dec", cs "December")]

/-- The spread `\x7b ...strings, ...monthStrings \x7d` in `processEntries`:
start from a copy of `strings` and assign every month key in order, so a
month binding overwrites a document-defined variable of the same name. -/
def mkAllStrings (strings : Dict) : Dict :=
  monthStrings.foldl (fun m p => alPut m p.1 p.2) strings

/-- `resolveFieldValue(value, strings)`: split on every `#`, trim each
part, look the quote-stripped lowercased part up (the JS `||` falls back
to the quote-stripped part when the binding is missing or empty) and join
with no separator; otherwise a whole-value case-insensitive lookup with
the literal value as fallback. -/
def resolveFieldValue (value : Chars) (strings : Dict) : Chars :=
  if value.contains '#' then
    ((splitOnChar '#' value).map trimChars).foldl
      (fun acc part =>
        let cleanedPart := toLowerChars (removeQuotes part)
        acc ++ match alGet strings cleanedPart with
               | some v => if v = [] then removeQuotes part else v
               | none => removeQuotes part) []
  else
    let lowerValue := toLowerChars value
    if alMem strings lowerValue then (alGet strings lowerValue).getD [] else value

/-- Does `l` begin with the five characters matched by `/ and /i`?  If
so, return the remainder. -/
def isAndSep : Chars → Option Chars
  | ' ' :: a :: n :: d :: ' ' :: rest =>
    if a.toLower = 'a' && n.toLower = 'n' && d.toLower = 'd' then some rest else none
  | _ => none

/-- `String.prototype.split(/ and /i)`: split at every (leftmost,
non-overlapping) occurrence of the five-character separator.  Fuel bounds
the recursion; every step consumes at least one character. -/
def splitAndSepAux : Nat → Chars → List Chars
  | _, [] => [[]]
  | 0, l => [l]
  | fuel + 1, c :: r =>
    match isAndSep (c :: r) with
    | some rest => [] :: splitAndSepAux fuel rest
    | none =>
      match splitAndSepAux fuel r with
      | [] => [[c]]
      | h :: t => (c :: h) :: t

def splitAndSep (l : Chars) : List Chars := splitAndSepAux l.length l

/-- `part.replace(/^"(.*)"$/, '$1')`: strip one pair of surrounding
double quotes when the string has length at least two, starts and ends
with a quote, and the interior crosses no newline (`.` does not match a
line break, so such a string is left unchanged). -/
def stripOuterQuotes (l : Chars) : Chars :=
  match l with
  | '"' :: rest =>
    if rest ≠ [] ∧ rest.getLast? = some '"' ∧ ¬ rest.dropLast.contains '\n' then
      rest.dropLast
    else l
  | _ => l

/-- `String.prototype.split(/\s+/)`: separators are maximal whitespace
runs.  Fuel bounds the recursion. -/
def splitWsRunsAux : Nat → Chars → List Chars
  | _, [] => [[]]
  | 0, l => [l]
  | fuel + 1, c :: r =>
    if isSpaceChar c then [] :: splitWsRunsAux fuel (r.dropWhile isSpaceChar)
    else
      match splitWsRunsAux fuel r with
      | [] => [[c]]
      | h :: t => (c :: h) :: t

def splitWsRuns (l : Chars) : List Chars := splitWsRunsAux l.length l

/-- `normalizeAuthorName(name)`: brace-wrapped names are kept verbatim
without the braces; a name with a comma splits at every comma into
`last, first`; otherwise the final whitespace-separated token is the last
name. -/
def normalizeAuthorName (name : Chars) : Chars :=
  let trimmedName := trimChars name
  if trimmedName.head? = some '\x7b' ∧ trimmedName.getLast? = some '\x7d' then
    trimmedName.dropLast.drop 1
  else if trimmedName.contains ',' then
    let nameParts := (splitOnChar ',' trimmedName).map trimChars
    nameParts.headD [] ++ cs ", " ++ joinSep (cs ", ") (nameParts.drop 1)
  else
    let nameParts := splitWsRuns trimmedName
    let lastName := nameParts.getLastD []
    let firstName := joinSep (cs " ") nameParts.dropLast
    if firstName ≠ [] then lastName ++ cs ", " ++ firstName else lastName

/-- The `#` branch of `parseAuthors`: walk the raw (unresolved) value
split on `#`, skipping empty parts and the two literal `and` separators;
a part that is itself a key of `stringVariables` is pushed verbatim as a
variable reference. -/
def parseAuthorsHash (raw : Chars) (stringVariables : Dict) : List Chars :=
  (splitOnChar '#' raw).foldl
    (fun acc part =>
      let trimmedPart := trimChars part
      if trimmedPart = [] ∨ trimmedPart = cs "\"and\"" ∨ trimmedPart = cs "\" and \"" then acc
      else
        let cleanPart := stripOuterQuotes trimmedPart
        if alMem stringVariables trimmedPart then acc ++ [trimmedPart]
        else if cleanPart ≠ [] ∧ cleanPart ≠ cs "and" ∧ cleanPart ≠ cs " and " then
          acc ++ [normalizeAuthorName cleanPart]
        else acc) []

/-- The plain branch of `parseAuthors`: split the resolved value on
`/ and /i`. -/
def parseAuthorsPlain (authorField : Chars) (stringVariables : Dict) : List Chars :=
  (splitAndSep authorField).foldl
    (fun acc part =>
      let cleanPart := trimChars part
      if cleanPart = [] then acc
      else if alMem stringVariables cleanPart then acc ++ [cleanPart]
      else acc ++ [normalizeAuthorName cleanPart]) []

/-- `parseAuthors(authorField, rawAuthorField, stringVariables)`: dispatch
between the hash branch (raw value truthy and containing a hash) and the
plain branch. -/
def parseAuthors (authorField : Chars) (rawAuthorField : Option Chars)
    (stringVariables : Dict) : List Chars :=
  if authorField = [] then []
  else
    match rawAuthorField with
    | some raw =>
      if raw ≠ [] ∧ raw.contains '#' = true then parseAuthorsHash raw stringVariables
      else parseAuthorsPlain authorField stringVariables
    | none => parseAuthorsPlain authorField stringVariables

/-- The deep copy `JSON.parse(JSON.stringify(entries))` performed by
`processEntries`, per entry.  Every component is a string, an array of
strings, a string record or a boolean, all of which survive the JSON
round trip unchanged; an optional property that is `undefined` (`none`)
is omitted by `JSON.stringify` and therefore absent (`none`) again after
`JSON.parse`. -/
def jsonCopyEntry (e : BibEntry) : BibEntry :=
  { type := e.type
    key := e.key
    fields := e.fields
    authors := e.authors
    authorsAreCanonical := e.authorsAreCanonical
    processedFields := e.processedFields }

/-- The first loop of `processEntries`: build `processedFields` by
resolving every field in order, then set `authors` following the
truthiness tests on `entry.fields.author` and `entry.authorsAreCanonical`. -/
def phase1Entry (strings allStrings : Dict) (e : BibEntry) : BibEntry :=
  let pf := e.fields.map (fun p => (p.1, resolveFieldValue p.2 allStrings))
  let e1 : BibEntry := { e with processedFields := some pf }
  match alGet e.fields (cs "author") with
  | some av =>
    if av ≠ [] ∧ e.authorsAreCanonical.getD false = false then
      { e1 with authors := some (parseAuthors ((alGet pf (cs "author")).getD []) (some av) strings) }
    else if av = [] then { e1 with authors := some [] }
    else e1
  | none => { e1 with authors := some [] }

/-- The inner crossref loop: for every field of the target (in insertion
order) that the child does not already have, assign the raw value onto the
child and the freshly resolved value onto its `processedFields`. -/
def inheritFrom (allStrings : Dict) (child target : BibEntry) : BibEntry :=
  target.fields.foldl
    (fun ch p =>
      if alMem ch.fields p.1 then ch
      else
        { ch with
          fields := alPut ch.fields p.1 p.2
          processedFields := some (alPut (ch.processedFields.getD []) p.1 (resolveFieldValue p.2 allStrings)) })
    child

/-- Lookup in `entryMap`: the map is built from key/object pairs, later
pairs overwrite earlier ones, and the stored references see every
mutation, so it is the last entry of the current list whose lowercased
key matches. -/
def lastKeyed (l : List BibEntry) (k : Chars) : Option BibEntry :=
  (l.filter (fun e => toLowerChars e.key = k)).getLast?

/-- The tail of one crossref-loop iteration once the crossref value `cr`
of the entry `e` at position `i` is in hand: the truthiness test, the
`entryMap` lookup, then the inheritance. -/
def crossrefStepCr (allStrings : Dict) (l : List BibEntry) (i : Nat) (e : BibEntry) (cr : Chars) : List BibEntry :=
  if cr = [] then l
  else
    match lastKeyed l (toLowerChars cr) with
    | none => l
    | some t => l.set i (inheritFrom allStrings e t)

/-- The body of one crossref-loop iteration once the current entry `e`
at position `i` is in hand. -/
def crossrefStepEntry (allStrings : Dict) (l : List BibEntry) (i : Nat) (e : BibEntry) : List BibEntry :=
  match alGet e.fields (cs "crossref") with
  | none => l
  | some cr => crossrefStepCr allStrings l i e cr

/-- One iteration of the crossref loop of `processEntries`, acting on the
entry at position `i` of the current list. -/
def crossrefStep (allStrings : Dict) (l : List BibEntry) (i : Nat) : List BibEntry :=
  match l[i]? with
  | none => l
  | some e => crossrefStepEntry allStrings l i e

/-- The crossref loop of `processEntries`, over the entries in document
order. -/
def crossrefPass (allStrings : Dict) (l : List BibEntry) : List BibEntry :=
  (List.range l.length).foldl (crossrefStep allStrings) l

/-- `processEntries(entries, strings)`: deep-copy the entries, build the
combined variable table, resolve every entry, then run the crossref
pass. -/
def processEntries (entries : List BibEntry) (strings : Dict) : List BibEntry :=
  crossrefPass (mkAllStrings strings)
    (((entries.map jsonCopyEntry)).map (phase1Entry strings (mkAllStrings strings)))

/-- `author.replace(/"/g, '\\"')`. -/
def escapeQuotes (l : Chars) : Chars :=
  l.foldr (fun c acc => if c = '"' then '\\' :: '"' :: acc else c :: acc) []

/-- The body of the `forEach` over `fieldKeys` in `serializeBibtex`,
for the field at position `idx` of `n`. -/
def serializeField (strings : Dict) (e : BibEntry) (idx n : Nat) (k v : Chars) : Chars :=
  let fieldText :=
    if toLowerChars k = cs "author" ∧ e.authors.getD [] ≠ [] then
      let authors := e.authors.getD []
      if authors.any (fun a => alMem strings a) then
        cs "  author = " ++
          joinSep (cs " # \" and \" # ")
            (authors.map (fun a => if alMem strings a then a else cs "\"" ++ escapeQuotes a ++ cs "\""))
      else
        cs "  author = \x7b" ++ joinSep (cs " and ") authors ++ cs "\x7d"
    else
      cs "  " ++ k ++ cs " = \x7b" ++ v ++ cs "\x7d"
  fieldText ++ (if idx < n - 1 then cs "," else []) ++ cs "\n"

/-- One entry of `serializeBibtex`'s `entries.forEach` body. -/
def serializeEntry (strings : Dict) (e : BibEntry) : Chars :=
  cs "@" ++ e.type ++ cs "\x7b" ++ e.key ++ cs ",\n" ++
    (e.fields.enum.foldl
      (fun acc p => acc ++ serializeField strings e p.1 e.fields.length p.2.1 p.2.2) []) ++
    cs "\x7d\n\n"

/-- `serializeBibtex(entries, strings)`: one `@string` line per variable
in insertion order, then every entry. -/
def serializeBibtex (entries : List BibEntry) (strings : Dict) : Chars :=
  entries.foldl (fun acc e => acc ++ serializeEntry strings e)
    (strings.foldl (fun acc p => acc ++ cs "@string\x7b" ++ p.1 ++ cs " = \"" ++ p.2 ++ cs "\"\x7d\n\n") [])

/-- The raw field `f` of the entry at position `i`. -/
def rawField (l : List BibEntry) (i : Nat) (f : Chars) : Option Chars :=
  match l[i]? with
  | some e => alGet e.fields f
  | none => none

/-- The resolved field `f` of the entry at position `i`. -/
def resolvedField (l : List BibEntry) (i : Nat) (f : Chars) : Option Chars :=
  match l[i]? with
  | some e => alGet (e.processedFields.getD []) f
  | none => none

/-- The author list of the entry at position `i`. -/
def authorsOf (l : List BibEntry) (i : Nat) : Option (List Chars) :=
  match l[i]? with
  | some e => e.authors
  | none => none

/-- Does `pat` occur as a contiguous substring of the text? -/
def startsWithChars : Chars → Chars → Bool
  | [], _ => true
  | _ :: _, [] => false
  | p :: ps, c :: rest => p = c && startsWithChars ps rest

def hasInfix (pat : Chars) : Chars → Bool
  | [] => startsWithChars pat []
  | c :: r => startsWithChars pat (c :: r) || hasInfix pat r
/-- Preservation of one original field binding (raw value kept, resolved
value as computed from the raw value) between an input entry and an entry
of the processed list. -/
def FieldsPres (A : Dict) (e e' : BibEntry) : Prop :=
  ∀ f v : Chars, alGet e.fields f = some v →
    alGet e'.fields f = some v ∧
    alGet (e'.processedFields.getD []) f = some (resolveFieldValue v A)

/-- Pointwise field preservation between the input list and the current
state of the crossref loop. -/
def ListPres (A : Dict) (orig cur : List BibEntry) : Prop :=
  ∀ (i : Nat) (e : BibEntry), orig[i]? = some e →
    ∃ e', cur[i]? = some e' ∧ FieldsPres A e e'

/-! ### Concrete documents used by individual claims -/

/-- Round-trip probe: a brace-delimited title containing a hash. -/
def c1Input : Chars := cs "@article\x7bk1, title = \x7ba # b\x7d\x7d"

def c1Doc : ParsedBibTeX := parseBibtex c1Input

def c1Resolved : List BibEntry := processEntries c1Doc.entries c1Doc.strings

def c1RoundDoc : ParsedBibTeX := parseBibtex (serializeBibtex c1Resolved c1Doc.strings)

def c1RoundResolved : List BibEntry := processEntries c1RoundDoc.entries c1RoundDoc.strings

/-- A document defining its own `jan` variable next to a bare `jan`
month field. -/
def c2OverrideInput : Chars := cs "@string\x7bjan = \"Januar\"\x7d\n@article\x7bk1, month = jan\x7d"

def c2OverrideResolved : List BibEntry :=
  processEntries (parseBibtex c2OverrideInput).entries (parseBibtex c2OverrideInput).strings

/-- The same field with no document-level `jan` definition. -/
def c2PlainInput : Chars := cs "@article\x7bk1, month = jan\x7d"

def c2PlainResolved : List BibEntry :=
  processEntries (parseBibtex c2PlainInput).entries (parseBibtex c2PlainInput).strings

/-- Scenario 2 of the spec: a bare variable as the whole author field. -/
def c3Input : Chars := cs "@string\x7bme = \"Smith, John\"\x7d\n@article\x7bk1, author = me\x7d"

def c3Doc : ParsedBibTeX := parseBibtex c3Input

def c3Resolved : List BibEntry := processEntries c3Doc.entries c3Doc.strings

def c3Output : Chars := serializeBibtex c3Resolved c3Doc.strings

/-- Scenario 3 of the spec: a hash concatenation whose quoted literal
contains a comma. -/
def c4Input : Chars :=
  cs "@string\x7bme = \"Smith, John\"\x7d\n@article\x7bk1, author = me # \" and \" # \"Doe, Jane\"\x7d"

def c4Doc : ParsedBibTeX := parseBibtex c4Input

def c4Resolved : List BibEntry := processEntries c4Doc.entries c4Doc.strings

/-- Scenario 4 of the spec: the child lacks `publisher`. -/
def c5aInput : Chars := cs "@book\x7bk1, publisher = \x7bACME\x7d\x7d\n@article\x7bk2, crossref = \x7bk1\x7d\x7d"

def c5aDoc : ParsedBibTeX := parseBibtex c5aInput

def c5aResolved : List BibEntry := processEntries c5aDoc.entries c5aDoc.strings

/-- Scenario 4 of the spec: the child defines its own `publisher`. -/
def c5bInput : Chars :=
  cs "@book\x7bk1, publisher = \x7bACME\x7d\x7d\n@article\x7bk2, crossref = \x7bk1\x7d, publisher = \x7bOther\x7d\x7d"

def c5bDoc : ParsedBibTeX := parseBibtex c5bInput

def c5bResolved : List BibEntry := processEntries c5bDoc.entries c5bDoc.strings

/-- The parsed `k2` entry of `c5bInput`, spelled out. -/
def c5bChild : BibEntry :=
  { type := cs "article"
    key := cs "k2"
    fields := [(cs "crossref", cs "k1"), (cs "publisher", cs "Other")] }

/-- A crossref chain `k2 → k1 → k0` with the middle entry first in
document order. -/
def c6aInput : Chars :=
  cs "@inbook\x7bk1, crossref = \x7bk0\x7d\x7d\n@article\x7bk2, crossref = \x7bk1\x7d\x7d\n@book\x7bk0, publisher = \x7bACME\x7d\x7d"

def c6aResolved : List BibEntry :=
  processEntries (parseBibtex c6aInput).entries (parseBibtex c6aInput).strings

/-- The same chain with the child `k2` first in document order. -/
def c6bInput : Chars :=
  cs "@article\x7bk2, crossref = \x7bk1\x7d\x7d\n@inbook\x7bk1, crossref = \x7bk0\x7d\x7d\n@book\x7bk0, publisher = \x7bACME\x7d\x7d"

def c6bResolved : List BibEntry :=
  processEntries (parseBibtex c6bInput).entries (parseBibtex c6bInput).strings

/-- Scenario 5 of the spec: an unterminated brace block. -/
def c7Unbalanced : Chars := cs "@article\x7bk1, title = \x7bUnterminated"

/-- The same unterminated block followed by a well-formed entry. -/
def c7Continued : Chars :=
  cs "@article\x7bk1, title = \x7bUnterminated\n@book\x7bk2, year = \x7b2020\x7d\x7d"

/-- An entry whose field value contains an escaped percent sign. -/
def c8Input : Chars := cs "@article\x7bk1, note = \x7ba\\%b\x7d\x7d"

/-! ### Helper lemmas -/

theorem jsonCopyEntry_eq (e : BibEntry) : jsonCopyEntry e = e := rfl

theorem alGet_alPut_self (m : Dict) (k v : Chars) : alGet (alPut m k v) k = some v := by
  induction m with
  | nil => simp [alPut, alGet]
  | cons p r ih =>
    obtain ⟨k', v'⟩ := p
    by_cases h : k' = k
    · simp [alPut, alGet, h]
    · simp [alPut, alGet, h, ih]

theorem alGet_alPut_ne (m : Dict) (k k' v : Chars) (h : k' ≠ k) :
    alGet (alPut m k' v) k = alGet m k := by
  have h' : ¬ (k = k') := fun hh => h hh.symm
  induction m with
  | nil => simp [alPut, alGet, h]
  | cons p r ih =>
    obtain ⟨k'', v''⟩ := p
    by_cases h2 : k'' = k'
    · subst h2
      simp [alPut, alGet, h]
    · by_cases h3 : k'' = k <;> simp [alPut, alGet, h2, h3, ih, h, h']

theorem alGet_foldl_alPut_of_ne (ps : Dict) (k : Chars) (h : ∀ p ∈ ps, p.1 ≠ k) :
    ∀ m : Dict, alGet (ps.foldl (fun m p => alPut m p.1 p.2) m) k = alGet m k := by
  induction ps with
  | nil => intro m; rfl
  | cons p r ih =>
    intro m
    have h1 : p.1 ≠ k := h p (List.mem_cons_self p r)
    have h2 : ∀ q ∈ r, q.1 ≠ k := fun q hq => h q (List.mem_cons_of_mem p hq)
    simp only [List.foldl_cons]
    rw [ih h2, alGet_alPut_ne _ _ _ _ h1]


theorem foldl_pres {σ α : Type} (P : σ → Prop) (f : σ → α → σ)
    (h : ∀ s a, P s → P (f s a)) :
    ∀ (l : List α) (s : σ), P s → P (l.foldl f s)
  | [], _, hs => hs
  | a :: l, s, hs => foldl_pres P f h l (f s a) (h s a hs)

theorem alGet_map_resolve (A : Dict) (m : Dict) (k : Chars) :
    alGet (m.map (fun p => (p.1, resolveFieldValue p.2 A))) k =
      (alGet m k).map (fun v => resolveFieldValue v A) := by
  induction m with
  | nil => rfl
  | cons p r ih =>
    obtain ⟨k', v'⟩ := p
    by_cases h : k' = k <;> simp [alGet, h, ih]

theorem phase1Entry_fields (ss A : Dict) (e : BibEntry) :
    (phase1Entry ss A e).fields = e.fields ∧
    (phase1Entry ss A e).processedFields =
      some (e.fields.map (fun p => (p.1, resolveFieldValue p.2 A))) := by
  unfold phase1Entry
  split
  · split
    · exact ⟨rfl, rfl⟩
    · split
      · exact ⟨rfl, rfl⟩
      · exact ⟨rfl, rfl⟩
  · exact ⟨rfl, rfl⟩

theorem phase1Entry_fieldsPres (ss A : Dict) (e : BibEntry) :
    FieldsPres A e (phase1Entry ss A e) := by
  intro f v hv
  obtain ⟨h1, h2⟩ := phase1Entry_fields ss A e
  refine ⟨by rw [h1]; exact hv, ?_⟩
  rw [h2]
  show alGet (e.fields.map (fun p => (p.1, resolveFieldValue p.2 A))) f = _
  rw [alGet_map_resolve, hv]
  rfl

theorem inheritFrom_pres (A : Dict) (e c t : BibEntry) (h : FieldsPres A e c) :
    FieldsPres A e (inheritFrom A c t) := by
  unfold inheritFrom
  refine foldl_pres (FieldsPres A e) _ ?_ t.fields c h
  intro ch p hch
  by_cases hmem : alMem ch.fields p.1 = true
  · simpa [hmem] using hch
  · rw [if_neg hmem]
    intro f v hv
    obtain ⟨h1, h2⟩ := hch f v hv
    have hne : p.1 ≠ f := by
      intro hEq
      rw [hEq] at hmem
      rw [alMem, h1] at hmem
      exact hmem rfl
    refine ⟨?_, ?_⟩
    · show alGet (alPut ch.fields p.1 p.2) f = some v
      rw [alGet_alPut_ne _ _ _ _ hne]
      exact h1
    · show alGet (alPut (ch.processedFields.getD []) p.1 (resolveFieldValue p.2 A)) f = _
      rw [alGet_alPut_ne _ _ _ _ hne]
      exact h2

theorem crossrefStepEntry_pres (A : Dict) (orig l : List BibEntry) (i : Nat) (ecur : BibEntry)
    (h : ListPres A orig l) (hecur : l[i]? = some ecur) :
    ListPres A orig (crossrefStepEntry A l i ecur) := by
  unfold crossrefStepEntry
  cases hcr : alGet ecur.fields (cs "crossref") with
  | none => exact h
  | some cr =>
    show ListPres A orig (crossrefStepCr A l i ecur cr)
    unfold crossrefStepCr
    by_cases hcre : cr = []
    · rw [if_pos hcre]
      exact h
    · rw [if_neg hcre]
      cases ht : lastKeyed l (toLowerChars cr) with
      | none => exact h
      | some t =>
        show ListPres A orig (l.set i (inheritFrom A ecur t))
        intro j e hj
        by_cases hij : i = j
        · subst hij
          obtain ⟨e', he', hp⟩ := h i e hj
          have hee : e' = ecur := by
            rw [he'] at hecur
            exact Option.some.inj hecur
          subst hee
          have hlen : i < l.length := by
            by_contra hnl
            rw [List.getElem?_eq_none (Nat.le_of_not_lt hnl)] at he'
            exact Option.noConfusion he'
          exact ⟨inheritFrom A e' t, List.getElem?_set_self hlen,
            inheritFrom_pres A e e' t hp⟩
        · obtain ⟨e', he', hp⟩ := h j e hj
          exact ⟨e', by rw [List.getElem?_set_ne hij]; exact he', hp⟩

theorem crossrefStep_pres (A : Dict) (orig l : List BibEntry) (i : Nat)
    (h : ListPres A orig l) : ListPres A orig (crossrefStep A l i) := by
  unfold crossrefStep
  cases hecur : l[i]? with
  | none => exact h
  | some ecur => exact crossrefStepEntry_pres A orig l i ecur h hecur

theorem processEntries_listPres (entries : List BibEntry) (strings : Dict) :
    ListPres (mkAllStrings strings) entries (processEntries entries strings) := by
  unfold processEntries crossrefPass
  refine foldl_pres (ListPres (mkAllStrings strings) entries) _
    (fun l i hl => crossrefStep_pres _ _ l i hl) _ _ ?_
  intro i e hi
  refine ⟨phase1Entry strings (mkAllStrings strings) e, ?_,
    phase1Entry_fieldsPres strings (mkAllStrings strings) e⟩
  have hcopy : entries.map jsonCopyEntry = entries := by
    have hid : jsonCopyEntry = id := funext (fun _ => rfl)
    rw [hid, List.map_id]
  rw [hcopy, List.getElem?_map, hi]
  rfl

theorem mkAllStrings_jan (ss : Dict) :
    alGet (mkAllStrings ss) (cs "jan") = some (cs "January") := by
  have h1 : mkAllStrings ss =
      (monthStrings.drop 1).foldl (fun m p => alPut m p.1 p.2)
        (alPut ss (cs "jan") (cs "January")) := rfl
  rw [h1, alGet_foldl_alPut_of_ne _ _ (by decide), alGet_alPut_self]

theorem stripCommentsAux_true_append (b c : Chars) (hb : '\n' ∉ b) :
    stripCommentsAux true (b ++ '\n' :: c) = '\n' :: stripCommentsAux false c := by
  induction b with
  | nil => simp [stripCommentsAux]
  | cons x b ih =>
    have hx : ¬ (x = '\n') := fun hxx => hb (hxx ▸ List.mem_cons_self x b)
    have hb' : '\n' ∉ b := fun hm => hb (List.mem_cons_of_mem x hm)
    simp [stripCommentsAux, hx, ih hb']

theorem stripCommentsAux_false_append (a rest : Chars) (ha : '%' ∉ a) :
    stripCommentsAux false (a ++ rest) = a ++ stripCommentsAux false rest := by
  induction a with
  | nil => rfl
  | cons x a ih =>
    have hx : ¬ (x = '%') := fun hxx => ha (hxx ▸ List.mem_cons_self x a)
    have ha' : '%' ∉ a := fun hm => ha (List.mem_cons_of_mem x hm)
    by_cases hnl : x = '\n' <;> simp [stripCommentsAux, hx, hnl, ih ha']

/-! ### Claims -/

/-- Claim C1: the round-trip property fails on the code.  For the document
parsed from the input of `c1Input` (a brace-delimited title containing a
hash) the resolved title keeps its outer braces, because the hash branch of
`parseValue` captures delimiters verbatim; `serializeBibtex` then wraps a
fresh brace pair around the raw value, so the re-parsed, re-resolved title
gains an extra brace pair and is not field-for-field equal to the original
resolved output. -/
theorem roundtrip_resolved_title_not_preserved :
    resolvedField c1Resolved 0 (cs "title") = some (cs "\x7bab\x7d") ∧
    resolvedField c1RoundResolved 0 (cs "title") = some (cs "\x7b\x7bab\x7d\x7d") ∧
    resolvedField c1RoundResolved 0 (cs "title") ≠ resolvedField c1Resolved 0 (cs "title") :=
  ⟨by decide, by decide, by decide⟩

/-- Claim C2, counterexample: a document-defined `jan` variable does not
override the built-in month table — the spread in `processEntries` puts
the month bindings after the document bindings, so the month wins and the
field resolves to January, not to the document-defined Januar. -/
theorem month_document_override_ignored :
    resolvedField c2OverrideResolved 0 (cs "month") = some (cs "January") ∧
    resolvedField c2OverrideResolved 0 (cs "month") ≠ some (cs "Januar") :=
  ⟨by decide, by decide⟩

/-- Claim C2, amended: the twelve built-in month abbreviations take
precedence over document-defined variables of the same name — for every
variable table, a bare `jan` resolves to January; and with no
document-level override a bare `jan` month field also resolves to
January. -/
theorem month_builtin_overrides_document :
    (∀ ss : Dict, resolveFieldValue (cs "jan") (mkAllStrings ss) = cs "January") ∧
    resolvedField c2PlainResolved 0 (cs "month") = some (cs "January") := by
  constructor
  · intro ss
    have hj := mkAllStrings_jan ss
    unfold resolveFieldValue
    rw [if_neg (by decide : ¬((cs "jan").contains '#' = true))]
    show (if alMem (mkAllStrings ss) (toLowerChars (cs "jan")) = true
          then (alGet (mkAllStrings ss) (toLowerChars (cs "jan"))).getD []
          else cs "jan") = cs "January"
    rw [show toLowerChars (cs "jan") = cs "jan" from by decide]
    have hm : alMem (mkAllStrings ss) (cs "jan") = true := by
      show (alGet (mkAllStrings ss) (cs "jan")).isSome = true
      rw [hj]
      rfl
    rw [if_pos hm, hj]
    rfl
  · decide

/-- Claim C3, counterexample: for a bare variable author field the
resolved author list holds the normalized literal, not the variable
reference, and the serialization emits a brace-delimited literal author
field rather than the bare variable reference. -/
theorem bare_variable_author_not_kept :
    authorsOf c3Resolved 0 = some [cs "Smith, John"] ∧
    authorsOf c3Resolved 0 ≠ some [cs "me"] ∧
    hasInfix (cs "author = me") c3Output = false ∧
    hasInfix (cs "author = \x7bSmith, John\x7d") c3Output = true :=
  ⟨by decide, by decide, by decide, by decide⟩

/-- Claim C3, amended: a bare variable author field is resolved away — the
display text resolves through the variable, but the author list stores the
normalized name and the serializer emits it as a brace-delimited literal,
so the variable reference survives only in hash-concatenation form. -/
theorem bare_variable_author_resolved_away :
    resolvedField c3Resolved 0 (cs "author") = some (cs "Smith, John") ∧
    c3Output = cs "@string\x7bme = \"Smith, John\"\x7d\n\n@article\x7bk1,\n  author = \x7bSmith, John\x7d\n\x7d\n\n" :=
  ⟨by decide, by decide⟩

/-- Claim C4: the hash branch of `parseValue` captures the value only up
to the first comma, even one inside a quoted segment, so the raw author
value is truncated, and resolving yields a mangled second author instead
of the name normalized from the quoted literal. -/
theorem concat_author_truncated_at_quoted_comma :
    rawField c4Doc.entries 0 (cs "author") = some (cs "me # \" and \" # \"Doe") ∧
    authorsOf c4Resolved 0 = some [cs "me", cs "\"Doe"] ∧
    normalizeAuthorName (cs "Doe, Jane") = cs "Doe, Jane" ∧
    authorsOf c4Resolved 0 ≠ some [cs "me", cs "Doe, Jane"] :=
  ⟨by decide, by decide, by decide, by decide⟩

/-- Claim C5: crossref inheritance is non-destructive.  In general, every
field binding present on an entry before resolution keeps its raw value
and its own resolved value in the output of `processEntries`; and in the
concrete scenario the child without a `publisher` field inherits ACME
while the child defining Other keeps Other. -/
theorem crossref_inheritance_nondestructive :
    (∀ (entries : List BibEntry) (strings : Dict) (i : Nat) (e : BibEntry) (f v : Chars),
      entries[i]? = some e → alGet e.fields f = some v →
      ∃ e', (processEntries entries strings)[i]? = some e' ∧
        alGet e'.fields f = some v ∧
        alGet (e'.processedFields.getD []) f = some (resolveFieldValue v (mkAllStrings strings))) ∧
    resolvedField c5aResolved 1 (cs "publisher") = some (cs "ACME") ∧
    rawField c5bResolved 1 (cs "publisher") = some (cs "Other") ∧
    resolvedField c5bResolved 1 (cs "publisher") = some (cs "Other") := by
  refine ⟨?_, by decide, by decide, by decide⟩
  intro entries strings i e f v hi hv
  obtain ⟨e', he', hp⟩ := processEntries_listPres entries strings i e hi
  obtain ⟨h1, h2⟩ := hp f v hv
  exact ⟨e', he', h1, h2⟩

/-- Witness for claim C5 at the concrete scenario document. -/
theorem crossref_inheritance_nondestructive_witness :
    ∃ e', (processEntries c5bDoc.entries c5bDoc.strings)[1]? = some e' ∧
      alGet e'.fields (cs "publisher") = some (cs "Other") ∧
      alGet (e'.processedFields.getD []) (cs "publisher") =
        some (resolveFieldValue (cs "Other") (mkAllStrings c5bDoc.strings)) :=
  crossref_inheritance_nondestructive.1 c5bDoc.entries c5bDoc.strings 1 c5bChild
    (cs "publisher") (cs "Other") (by decide) (by decide)

/-- Claim C6, counterexample: in the chain where k2 refers to k1 and k1 to
k0, with k1 placed before k2 in document order, the publisher that k1
inherited from k0 is transitively propagated onto k2, contradicting the
claim that inherited fields are never propagated regardless of order. -/
theorem crossref_transitive_when_target_first :
    resolvedField c6aResolved 1 (cs "publisher") = some (cs "ACME") ∧
    rawField c6aResolved 1 (cs "publisher") = some (cs "ACME") :=
  ⟨by decide, by decide⟩

/-- Claim C6, amended: the crossref pass copies from the target's fields
as they stand when the child is processed, in document order — when the
child precedes its target only the target's own source fields are
available and nothing inherited propagates, but when the target precedes
the child, fields the target inherited are propagated transitively. -/
theorem crossref_inheritance_order_dependent :
    rawField c6bResolved 0 (cs "publisher") = none ∧
    resolvedField c6bResolved 0 (cs "publisher") = none ∧
    resolvedField c6aResolved 1 (cs "publisher") = some (cs "ACME") :=
  ⟨by decide, by decide, by decide⟩

/-- Claim C7: an at-block with no balanced closing delimiter produces no
entry and scanning continues past it — the unterminated document parses
to zero entries and zero variables, and the same block followed by a
well-formed entry still yields exactly that entry.  The embedding of
`parseBibtex` is a total function, so no failure escapes it. -/
theorem parse_skips_unbalanced_blocks :
    parseBibtex c7Unbalanced = ⟨[], []⟩ ∧
    (parseBibtex c7Continued).entries =
      [{ type := cs "book", key := cs "k2", fields := [(cs "year", cs "2020")] }] ∧
    (parseBibtex c7Continued).strings = [] :=
  ⟨by decide, by decide, by decide⟩

/-- Claim C8, counterexample: the comment strip removes from every percent
sign to the end of the line, escaped or not — after a backslash-escaped
percent the rest of the line is dropped, and an entry whose note value
contains an escaped percent loses its closing braces and is not parsed. -/
theorem escaped_percent_also_stripped :
    stripComments (cs "x\\%y") = cs "x\\" ∧
    stripComments (cs "x\\%y") ≠ cs "x\\%y" ∧
    (parseBibtex c8Input).entries = [] :=
  ⟨by decide, by decide, by decide⟩

/-- Claim C8, amended: before block scanning, on each line the text from
the first percent sign — whether escaped or not — to the end of that line
is removed. -/
theorem strip_comments_removes_to_eol (a b c : Chars) (ha : '%' ∉ a) (hb : '\n' ∉ b) :
    stripComments (a ++ '%' :: (b ++ '\n' :: c)) = a ++ '\n' :: stripComments c := by
  unfold stripComments
  rw [stripCommentsAux_false_append a _ ha]
  congr 1
  rw [show stripCommentsAux false ('%' :: (b ++ '\n' :: c)) =
        stripCommentsAux true (b ++ '\n' :: c) from rfl]
  exact stripCommentsAux_true_append b c hb

/-- Witness for claim C8 at a concrete line containing a backslash before
the percent sign. -/
theorem strip_comments_removes_to_eol_witness :
    stripComments (cs "abc" ++ '%' :: (cs "\\q" ++ '\n' :: cs "z")) =
      cs "abc" ++ '\n' :: stripComments (cs "z") :=
  strip_comments_removes_to_eol (cs "abc") (cs "\\q") (cs "z") (by decide) (by decide)

/-- Claim C9: `processEntries` reads its inputs only through the deep
copy made on entry — the JSON round-trip copy is the identity on the data
model (every component is a string, string list, string record or
boolean, and an absent optional property stays absent), so the caller's
entries and variable table are unchanged by the call and the result is
computed from the copy. -/
theorem processEntries_reads_inputs_only (entries : List BibEntry) (strings : Dict) :
    entries.map jsonCopyEntry = entries ∧
    processEntries entries strings = processEntries (entries.map jsonCopyEntry) strings := by
  have hid : jsonCopyEntry = id := funext (fun _ => rfl)
  constructor
  · rw [hid, List.map_id]
  · rw [hid, List.map_id]

/-- Claim C10: an at-string block whose parsed value is the empty string
registers no variable — in general the registration step leaves the
variable table unchanged whenever the parsed value is empty, and the two
concrete documents with empty quoted and empty braced values produce an
empty variable table. -/
theorem empty_string_value_registers_nothing :
    (∀ (content : Chars) (ss : Dict), (parseField content).2 = [] → stringRegister content ss = ss) ∧
    (parseBibtex (cs "@string\x7bk = \"\"\x7d")).strings = [] ∧
    (parseBibtex (cs "@string\x7bk = \x7b\x7d\x7d")).strings = [] := by
  refine ⟨?_, by decide, by decide⟩
  intro content ss h
  unfold stringRegister
  exact if_neg (fun hcon => hcon.2 h)

/-- Witness for claim C10 at the concrete at-string body with an empty
quoted value. -/
theorem empty_string_value_registers_nothing_witness :
    stringRegister (cs "k = \"\"") [] = [] :=
  empty_string_value_registers_nothing.1 (cs "k = \"\"") [] (by decide)
